import Mathlib

/-!
Shallow embedding of the fourcipp document model (src/fourcipp/fourc_input.py)
and the legacy-section dispatchers (src/fourcipp/legacy_io/__init__.py),
together with the external collaborators the spec names (section catalog,
type-coercion engine, legacy record codecs, string-similarity suggestions),
modelled from the spec where their source is not part of the repository core.

Python dicts are embedded as insertion-ordered association lists with unique
keys; mutation is embedded as explicit state passing; raising is embedded as
returning an error value of the Err type.
-/

/-- Canonical value tree stored in document sections: null, bool, int, string,
ordered sequence, ordered mapping. Float leaves are not exercised by any claim
and are outside this model. -/
inductive Value where
  | null
  | bool (b : Bool)
  | int (i : Int)
  | str (s : String)
  | list (entries : List Value)
  | dict (entries : List (String × Value))

/-- Errors raised by the embedded operations. Each constructor records which
raise site of the source produced it, together with the data the message is
built from. The indexError constructor models the Python IndexError produced
when the source indexes the result of difflib.get_close_matches with [0]
although no candidate reached the cutoff. -/
inductive Err where
  | unknownSectionSet (key sugg : String)
  | typeErrorLegacySet (key : String)
  | keyError (key : String)
  | unknownSectionGet (key sugg : String) (setSections : List String)
  | unknownSectionPopNotSet (key sugg : String)
  | unknownSectionPopUnknown (key sugg : String)
  | valueErrorCombine (doubled : List String)
  | malformedRecord (line : String)
  | typeErrorCodec (msg : String)
  | valueErrorInterpret (key : String)
  | notImplementedInterpret (key : String)
  | typeErrorInline (msg : String)
  | valueErrorInline (key : String)
  | indexError
deriving DecidableEq, Repr

/-- Whether a value is a mapping, as isinstance(v, dict) in the source. -/
def Value.isDictV : Value → Bool
  | .dict _ => true
  | _ => false

/-- Modelled from the spec: the Type Coercion Engine (fourcipp/utils/converter.py,
outside the repository core). Per spec section 4.1 it traverses mappings and
sequences recursively preserving order, maps leaves to the canonical scalar
types, never parses numeric strings, and does not mutate its input. Every
value of the canonical value type of this model is already in canonical form,
so the traversal returns its input tree. -/
def coerce (value : Value) : Value := value

theorem coerce_id (v : Value) : coerce v = v := rfl

/-- Application of the type converter to every value of a mapping, as the
converter does on a dict. -/
def coerceDict (kvs : List (String × Value)) : List (String × Value) :=
  kvs.map (fun kv => (kv.1, coerce kv.2))

theorem coerceDict_id (kvs : List (String × Value)) : coerceDict kvs = kvs := by
  induction kvs with
  | nil => rfl
  | cons hd tl ih =>
    cases hd
    simp only [coerceDict, coerce, List.map] at *
    rw [ih]

/-! ### Association lists embedding Python dicts -/

/-- Lookup of a key in an insertion-ordered association list. -/
def alGet (l : List (String × Value)) (k : String) : Option Value :=
  match l with
  | [] => none
  | (k2, v) :: rest => if k2 = k then some v else alGet rest k

/-- Membership test, as the in operator on a Python dict. -/
def alContains (l : List (String × Value)) (k : String) : Bool :=
  (alGet l k).isSome

/-- Assignment d[k] = v on a Python dict: an existing key keeps its position
and receives the new value, a fresh key is appended. -/
def alSet (l : List (String × Value)) (k : String) (v : Value) :
    List (String × Value) :=
  match l with
  | [] => [(k, v)]
  | (k2, w) :: rest => if k2 = k then (k, v) :: rest else (k2, w) :: alSet rest k v

/-- Removal d.pop(k) on a Python dict, preserving the order of the rest. -/
def alRemove (l : List (String × Value)) (k : String) : List (String × Value) :=
  l.filter (fun kv => kv.1 ≠ k)

/-- Union a | b of two Python dicts: entries of a, updated and extended by b. -/
def alUnion (a b : List (String × Value)) : List (String × Value) :=
  b.foldl (fun acc kv => alSet acc kv.1 kv.2) a

/-! ### Section catalog (external collaborator) -/

/-- The read-only section catalog, spec section 3: the constants SECTIONS,
LEGACY_SECTIONS and ALL_SECTIONS imported by fourc_input.py from the package
root, treated by the spec as an external metadata table consumed read-only.
The development is parametric in it. -/
structure SectionCatalog where
  SECTIONS : List String
  LEGACY_SECTIONS : List String
  ALL_SECTIONS : List String
deriving Repr

/-- Embedding of is_section_known, fourc_input.py lines 50 to 61: exact catalog
membership or the FUNCT function-family name form. -/
def charsLead : List Char → List Char → Bool
  | [], _ => true
  | _ :: _, [] => false
  | a :: as, b :: bs => a = b && charsLead as bs

/-- Embedding of str.startswith of Python on character lists. -/
def startsWithStr (s pre : String) : Bool := charsLead pre.toList s.toList

/-- Embedding of str.endswith of Python on character lists. -/
def endsWithStr (s suf : String) : Bool :=
  charsLead suf.toList.reverse s.toList.reverse

/-- Embedding of str.upper of Python. -/
def toUpperStr (s : String) : String := String.mk (s.toList.map Char.toUpper)

def is_section_known (cat : SectionCatalog) (section_name : String) : Bool :=
  cat.SECTIONS.contains section_name || startsWithStr section_name "FUNCT"

/-! ### String-similarity suggestions -/

/-- Length of a longest common subsequence of two character lists, computed
with a structural fuel argument so that it evaluates inside the kernel; the
fuel is the sum of the lengths, which every recursive call decreases. -/
def lcsLenFuel : Nat → List Char → List Char → Nat
  | 0, _, _ => 0
  | _, [], _ => 0
  | _, _, [] => 0
  | fuel + 1, a :: as, b :: bs =>
    if a = b then lcsLenFuel fuel as bs + 1
    else max (lcsLenFuel fuel (a :: as) bs) (lcsLenFuel fuel as (b :: bs))

/-- Length of a longest common subsequence of two character lists. -/
def lcsLen (a b : List Char) : Nat := lcsLenFuel (a.length + b.length) a b

/-- Similarity ratio of two strings as a numerator and denominator pair,
2 * lcs / (la + lb), with the empty-against-empty case rated 1. -/
def simRatio (a b : String) : Nat × Nat :=
  let den := a.length + b.length
  if den = 0 then (1, 1) else (2 * lcsLen a.toList b.toList, den)

/-- Whether the similarity of two strings reaches the 0.3 cutoff. -/
def simPassCutoff (a b : String) : Bool :=
  10 * (simRatio a b).1 ≥ 3 * (simRatio a b).2

/-- Whether candidate c is strictly more similar to word than candidate b. -/
def strictlyCloser (word c b : String) : Bool :=
  (simRatio word c).1 * (simRatio word b).2 > (simRatio word b).1 * (simRatio word c).2

/-- Modelled from the spec: difflib.get_close_matches(word, possibilities, n=1,
cutoff=0.3) used by the source at every suggestion site; the standard library
routine is outside the repository. Per spec sections 4.4 and 9 it returns the
closest catalog name by a normalized string-similarity metric with cutoff
threshold 0.3, or no name when no candidate reaches the cutoff; this model
uses the longest-common-subsequence ratio the spec offers, keeping the first
candidate on ties as the stable selection of the standard routine does. -/
def getCloseMatches1 (word : String) (cands : List String) : List String :=
  let best := cands.foldl
    (fun acc c =>
      if simPassCutoff word c then
        match acc with
        | none => some c
        | some b => if strictlyCloser word c b then some c else acc
      else acc)
    none
  match best with
  | none => []
  | some b => [b]

/-- Embedding of the message-building idiom
difflib.get_close_matches(key.upper(), cands, n=1, cutoff=0.3)[0] used at every
raise site: when no candidate reaches the cutoff the [0] index itself raises
IndexError before the intended exception is constructed. -/
def suggestOr (key : String) (cands : List String) (mk : String → Err) : Err :=
  match getCloseMatches1 (toUpperStr key) cands with
  | [] => .indexError
  | s :: _ => mk s

/-! ### Legacy record codecs (modelled from the spec) -/

/-- Whether a character is whitespace for legacy-line tokenization. -/
def isWsChar (c : Char) : Bool := c = ' ' || c = '\t' || c = '\n'

/-- Accumulating loop of the whitespace tokenizer. -/
def splitWsGo : List Char → List Char → List String
  | [], cur => if cur.isEmpty then [] else [String.mk cur.reverse]
  | c :: rest, cur =>
    if isWsChar c then
      if cur.isEmpty then splitWsGo rest []
      else String.mk cur.reverse :: splitWsGo rest []
    else splitWsGo rest (c :: cur)

/-- Whitespace tokenization of one legacy line, spec section 4.2: split on
arbitrary whitespace runs, token sequence only is significant. -/
def splitWs (s : String) : List String := splitWsGo s.toList []

/-- Decimal digit value of one character, when it is a digit. -/
def digitVal? (c : Char) : Option Nat :=
  if '0' ≤ c && c ≤ '9' then some (c.toNat - '0'.toNat) else none

/-- Accumulating loop of the decimal parser. -/
def decDigitsGo : List Char → Nat → Option Nat
  | [], acc => some acc
  | c :: rest, acc =>
    match digitVal? c with
    | some d => decDigitsGo rest (acc * 10 + d)
    | none => none

/-- Parse of a nonempty run of decimal digits. -/
def decDigits? : List Char → Option Nat
  | [] => none
  | cs => decDigitsGo cs 0

/-- Integer parse of one token, as int(token) on the ASCII decimal forms the
legacy lines use; embeds String.toInt? of the runtime. -/
def tokenToInt? (t : String) : Option Int :=
  match t.toList with
  | '-' :: rest => (decDigits? rest).map (fun n => -(n : Int))
  | cs => (decDigits? cs).map (fun n => (n : Int))

/-- Modelled from the spec: decoding of one token, spec section 4.2. A token
with no decimal point or exponent marker decodes to an integer when it parses
as one; other tokens stay strings. Float tokens are outside this model. -/
def decodeToken (t : String) : Value :=
  match tokenToInt? t with
  | some i => .int i
  | none => .str t

/-- Modelled from the spec: collection of trailing KEY VALUE pair tokens into
an ordered attribute mapping, spec section 4.2. An odd leftover token is a
malformed record. Multi-valued attributes are outside this model. -/
def kvPairs (line : String) : List String → Except Err (List (String × Value))
  | [] => .ok []
  | [_] => .error (.malformedRecord line)
  | k :: v :: rest => do
    let tail ← kvPairs line rest
    .ok ((k, decodeToken v) :: tail)

/-- Modelled from the spec: generic line-per-record decode shared by the
line codecs, spec section 4.2: the mandatory leading positional token is the
integer record identifier, the trailing tokens are KEY VALUE attribute pairs;
a line whose mandatory prefix cannot be matched is a malformed record, and a
non-string entry cannot be tokenized at all. -/
def readLineRecord (v : Value) : Except Err Value :=
  match v with
  | .str line =>
    match splitWs line with
    | [] => .error (.malformedRecord line)
    | idTok :: rest =>
      match tokenToInt? idTok with
      | none => .error (.malformedRecord line)
      | some i => do
        let attrs ← kvPairs line rest
        .ok (.dict (("id", Value.int i) :: attrs))
  | _ => .error (.typeErrorCodec "expected a string line")

/-- Modelled from the spec: read_particle (fourcipp/legacy_io/particle.py,
outside src). One particle line decodes to one record. -/
def read_particle (v : Value) : Except Err Value := readLineRecord v

/-- Modelled from the spec: read_node (fourcipp/legacy_io/node.py, outside src). -/
def read_node (v : Value) : Except Err Value := readLineRecord v

/-- Modelled from the spec: read_element (fourcipp/legacy_io/element.py,
outside src). -/
def read_element (v : Value) : Except Err Value := readLineRecord v

/-- Modelled from the spec: read_node_topology (fourcipp/legacy_io/
node_topology.py, outside src). -/
def read_node_topology (v : Value) : Except Err Value := readLineRecord v

/-- Modelled from the spec: read_domain (fourcipp/legacy_io/domain.py, outside
src). The domain codec decodes the whole section body to one structured
result, spec section 4.2: each line contributes one KEY VALUE entry. -/
def read_domain (section_data : List Value) : Except Err Value := do
  let entries ← section_data.mapM (fun v =>
    match v with
    | .str line =>
      match splitWs line with
      | [k, t] => Except.ok (k, decodeToken t)
      | _ => Except.error (Err.malformedRecord line)
    | _ => Except.error (Err.typeErrorCodec "expected a string line"))
  .ok (.dict entries)

/-- Modelled from the spec: read_knotvectors (fourcipp/legacy_io/
knotvectors.py, outside src). The knot-vector codec decodes the whole section
body to one structured result; this model wraps the lines as one record. -/
def read_knotvectors (section_data : List Value) : Except Err Value := do
  let entries ← section_data.mapM (fun v =>
    match v with
    | .str line => Except.ok (Value.str line)
    | _ => Except.error (Err.typeErrorCodec "expected a string line"))
  .ok (.dict [("vectors", .list entries)])

/-- Modelled from the spec: encoding of one attribute value back to a token. -/
def encodeToken (v : Value) : Except Err String :=
  match v with
  | .int i => .ok (toString i)
  | .str s => .ok s
  | _ => .error (.typeErrorCodec "token is not encodable")

/-- Decimal digit characters of a natural number, via structural fuel. -/
def natDigitsFuel : Nat → Nat → List Char → List Char
  | 0, _, acc => acc
  | _, 0, acc => acc
  | fuel + 1, n, acc =>
    natDigitsFuel fuel (n / 10) (Char.ofNat (48 + n % 10) :: acc)

/-- Decimal string of a natural number. -/
def natToDecString (n : Nat) : String :=
  if n = 0 then "0" else String.mk (natDigitsFuel n n [])

/-- Decimal string of an integer, as str(i) in Python. -/
def intToDecString : Int → String
  | .ofNat n => natToDecString n
  | .negSucc n => "-" ++ natToDecString (n + 1)

/-- Tokens joined by single spaces, spec section 4.2. -/
def joinTokens : List String → String
  | [] => ""
  | [t] => t
  | t :: rest => t ++ " " ++ joinTokens rest

/-- Modelled from the spec: generic line-per-record encode shared by the write
codecs: the identifier token first, then the KEY VALUE attribute pairs in
stored order, joined by single spaces. -/
def writeLineRecord (r : Value) : Except Err Value :=
  match r with
  | .dict (("id", .int i) :: attrs) => do
    let toks ← attrs.mapM (fun kv => do
      let t ← encodeToken kv.2
      Except.ok (kv.1 ++ " " ++ t))
    .ok (.str (joinTokens (intToDecString i :: toks)))
  | _ => .error (.typeErrorCodec "record is not a line record")

/-- Modelled from the spec: write_particle. -/
def write_particle (r : Value) : Except Err Value := writeLineRecord r

/-- Modelled from the spec: write_node. -/
def write_node (r : Value) : Except Err Value := writeLineRecord r

/-- Modelled from the spec: write_element. -/
def write_element (r : Value) : Except Err Value := writeLineRecord r

/-- Modelled from the spec: write_node_topology. -/
def write_node_topology (r : Value) : Except Err Value := writeLineRecord r

/-- Modelled from the spec: write_domain, encoding the one structured domain
result back to its group of KEY VALUE lines. -/
def write_domain (section_data : Value) : Except Err Value :=
  match section_data with
  | .dict entries => do
    let lines ← entries.mapM (fun kv => do
      let t ← encodeToken kv.2
      Except.ok (Value.str (kv.1 ++ " " ++ t)))
    .ok (.list lines)
  | _ => .error (.typeErrorCodec "expected a dictionary")

/-- Modelled from the spec: write_knotvectors, encoding the structured
knot-vector result back to its full group of lines. -/
def write_knotvectors (section_data : Value) : Except Err Value :=
  match section_data with
  | .list [Value.dict [("vectors", .list entries)]] => .ok (.list entries)
  | .list entries => .ok (.list entries)
  | _ => .error (.typeErrorCodec "expected a list")

/-! ### Legacy section dispatcher (src/fourcipp/legacy_io/init) -/

/-- Embedding of _iterate_and_evaluate, legacy_io lines 36 to 46. -/
def iterate_and_evaluate (f : Value → Except Err Value) (iterable : List Value) :
    Except Err Value := do
  let rs ← iterable.mapM f
  .ok (.list rs)

/-- Embedding of interpret_legacy_section, legacy_io lines 49 to 88: guard that
the name is a legacy section, then dispatch with exact names first and name
suffixes after, in source order, else a NotImplementedError. -/
def interpret_legacy_section (cat : SectionCatalog) (legacy_section : String)
    (section_data : List Value) : Except Err Value :=
  if ¬ cat.LEGACY_SECTIONS.contains legacy_section then
    .error (.valueErrorInterpret legacy_section)
  else if legacy_section = "PARTICLES" then
    iterate_and_evaluate read_particle section_data
  else if legacy_section = "NODE COORDS" then
    iterate_and_evaluate read_node section_data
  else if legacy_section.endsWith "ELEMENTS" then
    iterate_and_evaluate read_element section_data
  else if legacy_section.endsWith "NODE TOPOLOGY" then
    iterate_and_evaluate read_node_topology section_data
  else if legacy_section.endsWith "DOMAIN" then
    read_domain section_data
  else if legacy_section.endsWith "KNOTVECTORS" then
    read_knotvectors section_data
  else
    .error (.notImplementedInterpret legacy_section)

/-- Embedding of inline_legacy_section, legacy_io lines 107 to 154: dispatch
with exact names first and name suffixes after, in source order, with the
KNOTVECTORS suffix tried before DOMAIN as in the source; each branch checks
the declared data shape and else raises a TypeError, and an unknown name is a
ValueError. -/
def inline_legacy_section (legacy_section : String) (section_data : Value) :
    Except Err Value :=
  if legacy_section = "PARTICLES" then
    match section_data with
    | .list es => iterate_and_evaluate write_particle es
    | _ => .error (.typeErrorInline "Expected the section data to be of type list.")
  else if legacy_section = "NODE COORDS" then
    match section_data with
    | .list es => iterate_and_evaluate write_node es
    | _ => .error (.typeErrorInline "Expected the section data to be of type list.")
  else if legacy_section.endsWith "ELEMENTS" then
    match section_data with
    | .list es => iterate_and_evaluate write_element es
    | _ => .error (.typeErrorInline "Expected the section data to be of type list.")
  else if legacy_section.endsWith "NODE TOPOLOGY" then
    match section_data with
    | .list es => iterate_and_evaluate write_node_topology es
    | _ => .error (.typeErrorInline "Expected the section data to be of type list.")
  else if legacy_section.endsWith "KNOTVECTORS" then
    match section_data with
    | .list es => write_knotvectors (.list es)
    | _ => .error (.typeErrorInline "Expected the section data to be of type list.")
  else if legacy_section.endsWith "DOMAIN" then
    match section_data with
    | .dict es => write_domain (.dict es)
    | _ => .error (.typeErrorInline "Expected a dictionary for the section data.")
  else
    .error (.valueErrorInline legacy_section)

/-- Embedding of inline_legacy_sections, legacy_io lines 157 to 169: every
legacy section value is replaced by its inlined form, keys and order kept. -/
def inline_legacy_sections : List (String × Value) →
    Except Err (List (String × Value))
  | [] => .ok []
  | (k, v) :: rest => do
    let w ← inline_legacy_section k v
    let tail ← inline_legacy_sections rest
    .ok ((k, w) :: tail)

/-! ### The document model (src/fourcipp/fourc_input.py) -/

/-- Embedding of the FourCInput object state: the two insertion-ordered
partitions _sections and _legacy_sections. -/
structure FourCInput where
  sections : List (String × Value)
  legacySections : List (String × Value)

/-- A freshly constructed empty FourCInput. -/
def emptyFourCInput : FourCInput := { sections := [], legacySections := [] }

/-- Embedding of the contains test, fourc_input.py lines 314 to 325: membership
in the concatenation of the legacy keys and the structured keys. -/
def FourCInput.containsDoc (d : FourCInput) (item : String) : Bool :=
  alContains d.legacySections item || alContains d.sections item

/-- Insertion of one string into an ascending sorted list. -/
def insertString (x : String) : List String → List String
  | [] => [x]
  | hd :: tl => if x < hd then x :: hd :: tl else hd :: insertString x tl

/-- Ascending insertion sort of strings, as sorted() in Python. -/
def sortStrings : List String → List String
  | [] => []
  | hd :: tl => insertString hd (sortStrings tl)

/-- Embedding of get_section_names, fourc_input.py lines 296 to 302: the sorted
concatenation of the legacy keys and the structured keys. -/
def FourCInput.get_section_names (d : FourCInput) : List String :=
  sortStrings (d.legacySections.map Prod.fst ++ d.sections.map Prod.fst)

/-- Embedding of the sections property, fourc_input.py lines 287 to 294: the
dict union of the structured and the legacy partition. -/
def FourCInput.sectionsUnion (d : FourCInput) : List (String × Value) :=
  alUnion d.sections d.legacySections

/-- Embedding of items, fourc_input.py lines 304 to 312. -/
def FourCInput.items (d : FourCInput) : List (String × Value) :=
  d.sectionsUnion

/-- Embedding of setting a section, fourc_input.py lines 145 to 184: coerce the
value; a structurally known name goes to the structured partition; a legacy
name receives either the eagerly interpreted records (a list none of whose
entries is a mapping), the value unchanged (a list with a mapping entry, or a
mapping), or a TypeError; any other name raises through the close-match
message builder. The overwrite warning of the source is a log only. Raising
happens before any assignment in every branch, so an error leaves the state
unchanged and the embedding returns only the new state on success. -/
def FourCInput.setItem (cat : SectionCatalog) (d : FourCInput) (key : String)
    (value : Value) : Except Err FourCInput :=
  let value := coerce value
  if is_section_known cat key then
    .ok { d with sections := alSet d.sections key value }
  else if cat.LEGACY_SECTIONS.contains key then
    match value with
    | .list entries =>
      if !(entries.any Value.isDictV) then do
        let interpreted ← interpret_legacy_section cat key entries
        .ok { d with legacySections := alSet d.legacySections key interpreted }
      else
        .ok { d with legacySections := alSet d.legacySections key (.list entries) }
    | .dict kvs =>
      .ok { d with legacySections := alSet d.legacySections key (.dict kvs) }
    | _ => .error (.typeErrorLegacySet key)
  else
    .error (suggestOr key cat.ALL_SECTIONS (Err.unknownSectionSet key))

/-- Embedding of getting a section, fourc_input.py lines 186 to 205: a
structurally known name is looked up in the structured partition, where a
missing key is a plain mapping KeyError; otherwise a name present in the
legacy partition is returned from there; otherwise the fancy
UnknownSectionException is built from the close matches and the set names. -/
def FourCInput.getItem (cat : SectionCatalog) (d : FourCInput) (key : String) :
    Except Err Value :=
  if is_section_known cat key then
    match alGet d.sections key with
    | some v => .ok v
    | none => .error (.keyError key)
  else
    match alGet d.legacySections key with
    | some v => .ok v
    | none =>
      .error (suggestOr key cat.ALL_SECTIONS
        (fun s => .unknownSectionGet key s d.get_section_names))

/-- Embedding of pop, fourc_input.py lines 207 to 240: remove and return from
whichever partition holds the key; an unset key returns the default when it
is a known section name and a default was supplied, raises the not-set
message for a known name without default, and raises the unknown-section
message for a name outside known_sections even when a default was supplied.
The result pairs the returned value with the new state; an error leaves the
state unchanged. -/
def FourCInput.pop (cat : SectionCatalog) (d : FourCInput) (key : String)
    (default_value : Option Value) : Except Err (Value × FourCInput) :=
  match alGet d.sections key with
  | some v => .ok (v, { d with sections := alRemove d.sections key })
  | none =>
    match alGet d.legacySections key with
    | some v => .ok (v, { d with legacySections := alRemove d.legacySections key })
    | none =>
      if cat.ALL_SECTIONS.contains key then
        match default_value with
        | some v => .ok (v, d)
        | none =>
          .error (suggestOr key d.get_section_names
            (Err.unknownSectionPopNotSet key))
      else
        .error (suggestOr key cat.ALL_SECTIONS (Err.unknownSectionPopUnknown key))

/-- Embedding of overwrite_sections, fourc_input.py lines 271 to 285, for the
items of another FourCInput or dict: one setItem per entry in order. The
returned pair is the state reached together with the first error if one was
raised, since an error mid-loop leaves the already assigned entries in place. -/
def FourCInput.overwrite_sections (cat : SectionCatalog) (d : FourCInput) :
    List (String × Value) → FourCInput × Option Err
  | [] => (d, none)
  | (k, v) :: rest =>
    match d.setItem cat k v with
    | .ok d2 => d2.overwrite_sections cat rest
    | .error e => (d, some e)

/-- Embedding of the local doubled_defined_sections of combine_sections: the
section names present in both documents. -/
def doubled_defined_sections (d other : FourCInput) : List String :=
  d.get_section_names.filter (fun n => other.get_section_names.contains n)

/-- Embedding of combine_sections, fourc_input.py lines 242 to 269, for a
FourCInput argument: a ValueError naming the doubly defined sections when the
name sets intersect, raised before any assignment, else overwrite_sections
with the items of the other document. -/
def FourCInput.combine_sections (cat : SectionCatalog) (d other : FourCInput) :
    FourCInput × Option Err :=
  if doubled_defined_sections d other ≠ [] then
    (d, some (.valueErrorCombine (doubled_defined_sections d other)))
  else
    d.overwrite_sections cat other.items

/-- Loop of split, fourc_input.py lines 441 to 442: pop each requested name
from the root copy without a default and assign it on the split document,
propagating the first raise. -/
def splitGo (cat : SectionCatalog) (root ext : FourCInput) :
    List String → Except Err (FourCInput × FourCInput)
  | [] => .ok (root, ext)
  | n :: rest =>
    match root.pop cat n none with
    | .error e => .error e
    | .ok (v, root2) =>
      match ext.setItem cat n v with
      | .error e => .error e
      | .ok ext2 => splitGo cat root2 ext2 rest

/-- Embedding of split, fourc_input.py lines 429 to 444: the receiver is not
mutated, because root_input is a deep copy of self and spiltted_input is a
fresh document; the loop pops each requested name from the copy. Returns the
root and split documents. -/
def FourCInput.split (cat : SectionCatalog) (d : FourCInput)
    (section_names : List String) : Except Err (FourCInput × FourCInput) :=
  splitGo cat d emptyFourCInput section_names

/-- Insertion of one entry into a key-sorted list, for the lexicographic dump
order. -/
def insertByKey (kv : String × Value) : List (String × Value) →
    List (String × Value)
  | [] => [kv]
  | hd :: tl => if kv.1 ≤ hd.1 then kv :: hd :: tl else hd :: insertByKey kv tl

/-- Lexicographic sort of an exported mapping by section name. -/
def sortByKey : List (String × Value) → List (String × Value)
  | [] => []
  | kv :: rest => insertByKey kv (sortByKey rest)

/-- Embedding of the inlined property, fourc_input.py lines 114 to 121: the
dict union of the structured partition with the inlined legacy partition. -/
def FourCInput.inlined (d : FourCInput) : Except Err (List (String × Value)) := do
  let il ← inline_legacy_sections d.legacySections
  .ok (alUnion d.sections il)

/-- Embedding of convert_to_native_types, fourc_input.py lines 74 to 77: the
type converter is applied to both partitions. -/
def FourCInput.convert_to_native_types (d : FourCInput) : FourCInput :=
  { sections := coerceDict d.sections, legacySections := coerceDict d.legacySections }

/-- Embedding of the mapping exported by dump, fourc_input.py lines 357 to 388,
on the default non-validating path: sections are converted to native types and
the inlined mapping is handed to the yaml writer. Modelled from the spec for
the writer itself (fourcipp/utils/yaml_io.py, outside src): per spec section 6
the writer emits the mapping in its stored order, or sorted lexicographically
by section name when sort_sections is requested. -/
def FourCInput.dumpExported (d : FourCInput) (sort_sections : Bool) :
    Except Err (List (String × Value)) := do
  let m ← d.convert_to_native_types.inlined
  .ok (if sort_sections then sortByKey m else m)

/-! ### Association list lemmas -/

theorem alGet_alSet_self (l : List (String × Value)) (k : String) (v : Value) :
    alGet (alSet l k v) k = some v := by
  induction l with
  | nil => simp [alSet, alGet]
  | cons hd tl ih =>
    obtain ⟨k2, w⟩ := hd
    by_cases h : k2 = k
    · subst h; simp [alSet, alGet]
    · simp [alSet, alGet, h, ih]

theorem alGet_alSet_ne (l : List (String × Value)) (k k2 : String) (v : Value)
    (h : k2 ≠ k) : alGet (alSet l k v) k2 = alGet l k2 := by
  induction l with
  | nil => simp [alSet, alGet, Ne.symm h]
  | cons hd tl ih =>
    obtain ⟨k3, w⟩ := hd
    by_cases h3 : k3 = k
    · subst h3
      simp [alSet, alGet, Ne.symm h]
    · simp only [alSet, if_neg h3, alGet]
      by_cases h2 : k3 = k2
      · simp [h2]
      · simp [h2, ih]

theorem alContains_alSet_self (l : List (String × Value)) (k : String)
    (v : Value) : alContains (alSet l k v) k = true := by
  simp [alContains, alGet_alSet_self]

theorem alContains_alSet_ne (l : List (String × Value)) (k k2 : String)
    (v : Value) (h : k2 ≠ k) : alContains (alSet l k v) k2 = alContains l k2 := by
  simp [alContains, alGet_alSet_ne l k k2 v h]

theorem alGet_alRemove_self (l : List (String × Value)) (k : String) :
    alGet (alRemove l k) k = none := by
  induction l with
  | nil => simp [alRemove, alGet]
  | cons hd tl ih =>
    obtain ⟨k2, w⟩ := hd
    by_cases h : k2 = k
    · subst h; simpa [alRemove, alGet] using ih
    · simpa [alRemove, alGet, h] using ih

theorem alGet_alRemove_ne (l : List (String × Value)) (k k2 : String)
    (h : k2 ≠ k) : alGet (alRemove l k) k2 = alGet l k2 := by
  induction l with
  | nil => simp [alRemove, alGet]
  | cons hd tl ih =>
    obtain ⟨k3, w⟩ := hd
    by_cases h3 : k3 = k
    · subst h3
      rw [show alRemove ((k3, w) :: tl) k3 = alRemove tl k3 from by
        simp [alRemove]]
      rw [ih]
      simp [alGet, Ne.symm h]
    · by_cases h2 : k3 = k2
      · subst h2
        simp [alRemove, alGet, h3]
      · rw [show alRemove ((k3, w) :: tl) k = (k3, w) :: alRemove tl k from by
          simp [alRemove, h3]]
        simp [alGet, h2, ih]

theorem alContains_alRemove_self (l : List (String × Value)) (k : String) :
    alContains (alRemove l k) k = false := by
  simp [alContains, alGet_alRemove_self]

theorem alContains_alRemove_ne (l : List (String × Value)) (k k2 : String)
    (h : k2 ≠ k) : alContains (alRemove l k) k2 = alContains l k2 := by
  simp [alContains, alGet_alRemove_ne l k k2 h]

theorem mem_alSet (l : List (String × Value)) (k : String) (v : Value) :
    ∀ kv ∈ alSet l k v, kv = (k, v) ∨ kv ∈ l := by
  induction l with
  | nil => simp [alSet]
  | cons hd tl ih =>
    obtain ⟨k2, w⟩ := hd
    by_cases h : k2 = k
    · subst h
      intro kv hkv
      simp only [alSet, if_pos rfl] at hkv
      rcases List.mem_cons.mp hkv with h1 | h1
      · exact Or.inl h1
      · exact Or.inr (List.mem_cons_of_mem _ h1)
    · intro kv hkv
      simp only [alSet, if_neg h] at hkv
      rcases List.mem_cons.mp hkv with h1 | h1
      · exact Or.inr (h1 ▸ List.mem_cons_self _ _)
      · rcases ih kv h1 with h2 | h2
        · exact Or.inl h2
        · exact Or.inr (List.mem_cons_of_mem _ h2)

theorem mem_alRemove (l : List (String × Value)) (k : String) :
    ∀ kv ∈ alRemove l k, kv ∈ l := by
  intro kv hkv
  exact List.mem_of_mem_filter hkv

theorem alSet_of_not_contains (l : List (String × Value)) (k : String)
    (v : Value) (h : alContains l k = false) : alSet l k v = l ++ [(k, v)] := by
  induction l with
  | nil => simp [alSet]
  | cons hd tl ih =>
    obtain ⟨k2, w⟩ := hd
    by_cases h2 : k2 = k
    · subst h2; simp [alContains, alGet] at h
    · simp only [alContains, alGet, h2, if_false] at h
      simp [alSet, h2, ih h]

theorem exceptBind_ok {α β : Type} (w : α) (f : α → Except Err β) :
    (Except.ok w >>= f) = f w := rfl

theorem exceptBind_error {α β : Type} (e : Err) (f : α → Except Err β) :
    ((Except.error e : Except Err α) >>= f) = Except.error e := rfl

theorem exists_mem_of_alContains (l : List (String × Value)) (k : String)
    (h : alContains l k = true) : ∃ v, (k, v) ∈ l := by
  induction l with
  | nil => simp [alContains, alGet] at h
  | cons hd tl ih =>
    obtain ⟨k2, w⟩ := hd
    by_cases h2 : k2 = k
    · subst h2; exact ⟨w, List.mem_cons_self _ _⟩
    · simp only [alContains, alGet, if_neg h2] at h
      obtain ⟨v, hv⟩ := ih h
      exact ⟨v, List.mem_cons_of_mem _ hv⟩

/-! ### Characterization of the document operations -/

theorem setItem_known (cat : SectionCatalog) (d : FourCInput) (key : String)
    (value : Value) (h : is_section_known cat key = true) :
    d.setItem cat key value =
      .ok { d with sections := alSet d.sections key (coerce value) } := by
  simp [FourCInput.setItem, h]

/-- Case analysis of a successful setItem: a structurally known key lands in
the structured partition with its coerced value; otherwise the key is a legacy
name and some value lands in the legacy partition; nothing else changes. -/
theorem setItem_ok_spec (cat : SectionCatalog) (d : FourCInput) (key : String)
    (value : Value) (d2 : FourCInput)
    (h : d.setItem cat key value = .ok d2) :
    (is_section_known cat key = true ∧
       d2.sections = alSet d.sections key (coerce value) ∧
       d2.legacySections = d.legacySections) ∨
    (is_section_known cat key = false ∧
       cat.LEGACY_SECTIONS.contains key = true ∧
       d2.sections = d.sections ∧
       ∃ w, d2.legacySections = alSet d.legacySections key w) := by
  unfold FourCInput.setItem at h
  by_cases hk : is_section_known cat key = true
  · left
    refine ⟨hk, ?_⟩
    simp only [hk, if_true] at h
    cases h
    exact ⟨rfl, rfl⟩
  · right
    simp only [Bool.not_eq_true] at hk
    simp only [hk, Bool.false_eq_true, if_false] at h
    by_cases hl : cat.LEGACY_SECTIONS.contains key = true
    · refine ⟨hk, hl, ?_⟩
      simp only [hl, if_true] at h
      cases hv : coerce value with
      | null => rw [hv] at h; cases h
      | bool b => rw [hv] at h; cases h
      | int i => rw [hv] at h; cases h
      | str s => rw [hv] at h; cases h
      | list es =>
        rw [hv] at h
        simp only at h
        by_cases ha : (es.any Value.isDictV) = true
        · simp only [ha, Bool.not_true, Bool.false_eq_true, if_false] at h
          cases h
          exact ⟨rfl, _, rfl⟩
        · simp only [Bool.not_eq_true] at ha
          simp only [ha, Bool.not_false, if_true] at h
          cases hi : interpret_legacy_section cat key es with
          | ok w =>
            rw [hi] at h
            rw [exceptBind_ok] at h
            cases h
            exact ⟨rfl, w, rfl⟩
          | error e =>
            rw [hi] at h
            rw [exceptBind_error] at h
            cases h
      | dict kvs =>
        rw [hv] at h
        simp only at h
        cases h
        exact ⟨rfl, _, rfl⟩
    · simp only [Bool.not_eq_true] at hl
      simp only [hl, Bool.false_eq_true, if_false] at h
      cases h

theorem pop_sections_found (cat : SectionCatalog) (d : FourCInput) (k : String)
    (dflt : Option Value) (v : Value) (h : alGet d.sections k = some v) :
    d.pop cat k dflt = .ok (v, { d with sections := alRemove d.sections k }) := by
  simp [FourCInput.pop, h]

theorem pop_legacy_found (cat : SectionCatalog) (d : FourCInput) (k : String)
    (dflt : Option Value) (v : Value) (hs : alGet d.sections k = none)
    (h : alGet d.legacySections k = some v) :
    d.pop cat k dflt =
      .ok (v, { d with legacySections := alRemove d.legacySections k }) := by
  simp [FourCInput.pop, hs, h]

/-- Case analysis of a successful pop: the value came from the structured
partition, from the legacy partition, or it is the supplied default for an
unset known name, with the matching removal as the new state. -/
theorem pop_ok_spec (cat : SectionCatalog) (d : FourCInput) (k : String)
    (dflt : Option Value) (v : Value) (d2 : FourCInput)
    (h : d.pop cat k dflt = .ok (v, d2)) :
    (alGet d.sections k = some v ∧
       d2 = { d with sections := alRemove d.sections k }) ∨
    (alGet d.sections k = none ∧ alGet d.legacySections k = some v ∧
       d2 = { d with legacySections := alRemove d.legacySections k }) ∨
    (alGet d.sections k = none ∧ alGet d.legacySections k = none ∧
       dflt = some v ∧ d2 = d) := by
  unfold FourCInput.pop at h
  cases hs : alGet d.sections k with
  | some w =>
    rw [hs] at h
    simp only [Except.ok.injEq, Prod.mk.injEq] at h
    obtain ⟨h1, h2⟩ := h
    subst h1
    subst h2
    exact Or.inl ⟨rfl, rfl⟩
  | none =>
    rw [hs] at h
    cases hl : alGet d.legacySections k with
    | some w =>
      rw [hl] at h
      simp only [Except.ok.injEq, Prod.mk.injEq] at h
      obtain ⟨h1, h2⟩ := h
      subst h1
      subst h2
      exact Or.inr (Or.inl ⟨rfl, rfl, rfl⟩)
    | none =>
      rw [hl] at h
      by_cases hca : cat.ALL_SECTIONS.contains k = true
      · simp only [hca, if_true] at h
        cases dflt with
        | some w =>
          simp only [Except.ok.injEq, Prod.mk.injEq] at h
          obtain ⟨h1, h2⟩ := h
          subst h1
          subst h2
          exact Or.inr (Or.inr ⟨rfl, rfl, rfl, rfl⟩)
        | none => simp at h
      · simp only [Bool.not_eq_true] at hca
        simp only [hca, Bool.false_eq_true, if_false] at h
        cases h

/-! ### The partition invariant and the operation machine -/

/-- The partition invariant: every key of the structured partition satisfies
the known predicate and every key of the legacy partition fails it, which
makes the two partitions disjoint because the branch structure of setItem
routes each name by that predicate alone. -/
def PartitionInv (cat : SectionCatalog) (d : FourCInput) : Prop :=
  (∀ kv ∈ d.sections, is_section_known cat kv.1 = true) ∧
  (∀ kv ∈ d.legacySections, is_section_known cat kv.1 = false)

theorem PartitionInv_empty (cat : SectionCatalog) :
    PartitionInv cat emptyFourCInput := by
  constructor <;> simp [emptyFourCInput]

theorem PartitionInv_setItem (cat : SectionCatalog) (d : FourCInput)
    (k : String) (v : Value) (d2 : FourCInput) (hinv : PartitionInv cat d)
    (h : d.setItem cat k v = .ok d2) : PartitionInv cat d2 := by
  rcases setItem_ok_spec cat d k v d2 h with ⟨hk, hs, hl⟩ | ⟨hk, _, hs, w, hl⟩
  · constructor
    · intro kv hkv
      rw [hs] at hkv
      rcases mem_alSet d.sections k (coerce v) kv hkv with h1 | h1
      · rw [h1]; exact hk
      · exact hinv.1 kv h1
    · intro kv hkv
      rw [hl] at hkv
      exact hinv.2 kv hkv
  · constructor
    · intro kv hkv
      rw [hs] at hkv
      exact hinv.1 kv hkv
    · intro kv hkv
      rw [hl] at hkv
      rcases mem_alSet d.legacySections k w kv hkv with h1 | h1
      · rw [h1]; exact hk
      · exact hinv.2 kv h1

/-- The post-state of one item assignment: the new state on success, the
unchanged state on a raise, since every raise of the source set path happens
before any assignment. -/
def setPost (cat : SectionCatalog) (d : FourCInput) (k : String) (v : Value) :
    FourCInput :=
  match d.setItem cat k v with
  | .ok d2 => d2
  | .error _ => d

/-- The post-state of one pop: the new state on success, the unchanged state
on a raise. -/
def popPost (cat : SectionCatalog) (d : FourCInput) (k : String)
    (dflt : Option Value) : FourCInput :=
  match d.pop cat k dflt with
  | .ok (_, d2) => d2
  | .error _ => d

/-- One mutating public operation of the document model, embedded as its
effect on the receiving document: item assignment, pop, combine, overwrite
and split; split never mutates the receiver because it works on a deep copy. -/
inductive DocOp where
  | setOp (k : String) (v : Value)
  | popOp (k : String) (dflt : Option Value)
  | combineOp (other : FourCInput)
  | overwriteOp (other : FourCInput)
  | splitOp (ns : List String)

/-- Effect of one operation on the receiving document, including the states
reached when the operation raises partway. -/
def applyDocOp (cat : SectionCatalog) (d : FourCInput) : DocOp → FourCInput
  | .setOp k v => setPost cat d k v
  | .popOp k dflt => popPost cat d k dflt
  | .combineOp o => (d.combine_sections cat o).1
  | .overwriteOp o => (d.overwrite_sections cat o.items).1
  | .splitOp _ => d

/-- A document reached from a freshly constructed one by a sequence of
public operations. -/
def runDocOps (cat : SectionCatalog) (ops : List DocOp) : FourCInput :=
  ops.foldl (applyDocOp cat) emptyFourCInput

theorem PartitionInv_setPost (cat : SectionCatalog) (d : FourCInput)
    (k : String) (v : Value) (hinv : PartitionInv cat d) :
    PartitionInv cat (setPost cat d k v) := by
  unfold setPost
  cases h : d.setItem cat k v with
  | ok d2 => exact PartitionInv_setItem cat d k v d2 hinv h
  | error e => exact hinv

theorem PartitionInv_popPost (cat : SectionCatalog) (d : FourCInput)
    (k : String) (dflt : Option Value) (hinv : PartitionInv cat d) :
    PartitionInv cat (popPost cat d k dflt) := by
  unfold popPost
  cases h : d.pop cat k dflt with
  | ok vd =>
    obtain ⟨v, d2⟩ := vd
    rcases pop_ok_spec cat d k dflt v d2 h with ⟨_, h2⟩ | ⟨_, _, h2⟩ | ⟨_, _, _, h2⟩ <;>
      subst h2
    · exact ⟨fun kv hkv => hinv.1 kv (mem_alRemove d.sections k kv hkv), hinv.2⟩
    · exact ⟨hinv.1, fun kv hkv => hinv.2 kv (mem_alRemove d.legacySections k kv hkv)⟩
    · exact hinv
  | error e => exact hinv

theorem PartitionInv_overwrite (cat : SectionCatalog) (l : List (String × Value)) :
    ∀ d : FourCInput, PartitionInv cat d →
      PartitionInv cat (d.overwrite_sections cat l).1 := by
  induction l with
  | nil => intro d hinv; simpa [FourCInput.overwrite_sections] using hinv
  | cons hd tl ih =>
    intro d hinv
    obtain ⟨k, v⟩ := hd
    unfold FourCInput.overwrite_sections
    cases h : d.setItem cat k v with
    | ok d2 => exact ih d2 (PartitionInv_setItem cat d k v d2 hinv h)
    | error e => exact hinv

theorem PartitionInv_applyDocOp (cat : SectionCatalog) (d : FourCInput)
    (op : DocOp) (hinv : PartitionInv cat d) :
    PartitionInv cat (applyDocOp cat d op) := by
  cases op with
  | setOp k v => exact PartitionInv_setPost cat d k v hinv
  | popOp k dflt => exact PartitionInv_popPost cat d k dflt hinv
  | combineOp o =>
    unfold applyDocOp FourCInput.combine_sections
    by_cases hdb : doubled_defined_sections d o ≠ []
    · simpa [hdb] using hinv
    · simpa [hdb] using PartitionInv_overwrite cat o.items d hinv
  | overwriteOp o => exact PartitionInv_overwrite cat o.items d hinv
  | splitOp ns => exact hinv

theorem PartitionInv_runDocOps (cat : SectionCatalog) (ops : List DocOp) :
    PartitionInv cat (runDocOps cat ops) := by
  suffices hgen : ∀ d : FourCInput, PartitionInv cat d →
      PartitionInv cat (ops.foldl (applyDocOp cat) d) by
    exact hgen emptyFourCInput (PartitionInv_empty cat)
  induction ops with
  | nil => intro d hinv; exact hinv
  | cons op rest ih =>
    intro d hinv
    exact ih (applyDocOp cat d op) (PartitionInv_applyDocOp cat d op hinv)

/-- Claim C2: for every document reached from a fresh one by any sequence of
public operations (set, pop, combine, overwrite, split), no section name is
ever present in both the structured and the legacy partition at the same
time. -/
theorem claim_C2_partitions_disjoint (cat : SectionCatalog) (ops : List DocOp)
    (n : String) :
    (alContains (runDocOps cat ops).sections n &&
      alContains (runDocOps cat ops).legacySections n) = false := by
  have hinv := PartitionInv_runDocOps cat ops
  by_contra hboth
  rw [Bool.not_eq_false, Bool.and_eq_true] at hboth
  obtain ⟨v1, hm1⟩ := exists_mem_of_alContains _ n hboth.1
  obtain ⟨v2, hm2⟩ := exists_mem_of_alContains _ n hboth.2
  have h1 := hinv.1 (n, v1) hm1
  have h2 := hinv.2 (n, v2) hm2
  rw [h1] at h2
  cases h2

/-! ### Concrete inputs for the closed witnesses and counterexamples -/

/-- Concrete catalog standing in for the external metadata table. -/
def demoCatalog : SectionCatalog :=
  { SECTIONS := ["TITLE"], LEGACY_SECTIONS := ["PARTICLES"],
    ALL_SECTIONS := ["TITLE", "PARTICLES"] }

/-- Concrete document holding one structured section, reachable by one
assignment on a fresh document. -/
def demoDocTitle : FourCInput :=
  { sections := [("TITLE", .str "demo")], legacySections := [] }

/-- Concrete document holding the interpreted records of one raw particle
line, reachable by one assignment on a fresh document. -/
def demoDocParticles : FourCInput :=
  { sections := [],
    legacySections :=
      [("PARTICLES", .list [.dict [("id", .int 1), ("TYPE", .str "A")]])] }

/-- Concrete document holding the particle records and a structured title,
reachable by assigning the legacy section first and the title second. -/
def demoDocBoth : FourCInput :=
  { sections := [("TITLE", .str "t")],
    legacySections :=
      [("PARTICLES", .list [.dict [("id", .int 1), ("TYPE", .str "A")]])] }

theorem alGet_eq_none_of_not_contains (l : List (String × Value)) (k : String)
    (h : alContains l k = false) : alGet l k = none := by
  unfold alContains at h
  cases hg : alGet l k with
  | none => rfl
  | some w => rw [hg] at h; simp at h

/-! ### Claim C1 -/

/-- Claim C1 counterexample: for a legacy section name and a raw line
sequence, get after set returns the eagerly interpreted records, not the
type-coerced input: assigning the single raw particle line stores one record
mapping, which is structurally different from the coerced list of lines. -/
theorem claim_C1_counterexample :
    emptyFourCInput.setItem demoCatalog "PARTICLES" (.list [.str "1 TYPE A"]) =
      .ok demoDocParticles ∧
    demoDocParticles.getItem demoCatalog "PARTICLES" ≠
      .ok (coerce (.list [.str "1 TYPE A"])) := by
  refine ⟨rfl, ?_⟩
  intro h
  rw [show demoDocParticles.getItem demoCatalog "PARTICLES" =
      .ok (.list [.dict [("id", .int 1), ("TYPE", .str "A")]]) from rfl] at h
  simp [coerce] at h

/-- Claim C1 (amended): after a successful set, get of the same name returns
exactly the stored value: the coerced value for a structurally known name,
for a legacy mapping value and for a legacy sequence with a mapping entry;
for a legacy sequence with no mapping entry it returns the eagerly
interpreted records instead. -/
theorem claim_C1_get_after_set (cat : SectionCatalog) (d : FourCInput)
    (n : String) (v : Value) (d2 : FourCInput)
    (h : d.setItem cat n v = .ok d2) :
    (is_section_known cat n = true → d2.getItem cat n = .ok (coerce v)) ∧
    (∀ kvs, coerce v = .dict kvs → d2.getItem cat n = .ok (coerce v)) ∧
    (∀ es, coerce v = .list es → is_section_known cat n = false →
       (es.any Value.isDictV = true → d2.getItem cat n = .ok (coerce v)) ∧
       (es.any Value.isDictV = false →
          d2.getItem cat n = interpret_legacy_section cat n es)) := by
  by_cases hk : is_section_known cat n = true
  · simp only [FourCInput.setItem, hk, if_true] at h
    cases h
    refine ⟨?_, ?_, ?_⟩
    · intro _
      simp [FourCInput.getItem, hk, alGet_alSet_self]
    · intro kvs _
      simp [FourCInput.getItem, hk, alGet_alSet_self]
    · intro es _ hkf
      rw [hk] at hkf
      cases hkf
  · simp only [Bool.not_eq_true] at hk
    simp only [FourCInput.setItem, hk, Bool.false_eq_true, if_false] at h
    by_cases hleg : cat.LEGACY_SECTIONS.contains n = true
    · simp only [hleg, if_true] at h
      cases v with
      | null => cases h
      | bool b => cases h
      | int i => cases h
      | str s => cases h
      | dict kvs =>
        simp only [coerce] at h
        cases h
        refine ⟨?_, ?_, ?_⟩
        · intro hk2; rw [hk2] at hk; cases hk
        · intro kvs2 _
          simp [FourCInput.getItem, hk, alGet_alSet_self, coerce]
        · intro es hes
          cases hes
      | list es =>
        simp only [coerce] at h
        by_cases hany : es.any Value.isDictV = true
        · simp only [hany, Bool.not_true, Bool.false_eq_true, if_false] at h
          cases h
          refine ⟨?_, ?_, ?_⟩
          · intro hk2; rw [hk2] at hk; cases hk
          · intro kvs2 hkv; cases hkv
          · intro es2 hes _
            cases hes
            refine ⟨?_, ?_⟩
            · intro _
              simp [FourCInput.getItem, hk, alGet_alSet_self, coerce]
            · intro hany2; rw [hany2] at hany; cases hany
        · simp only [Bool.not_eq_true] at hany
          simp only [hany, Bool.not_false, if_true] at h
          cases hi : interpret_legacy_section cat n es with
          | ok w =>
            rw [hi] at h
            rw [exceptBind_ok] at h
            cases h
            refine ⟨?_, ?_, ?_⟩
            · intro hk2; rw [hk2] at hk; cases hk
            · intro kvs2 hkv; cases hkv
            · intro es2 hes _
              cases hes
              refine ⟨?_, ?_⟩
              · intro hany2; rw [hany2] at hany; cases hany
              · intro _
                rw [hi]
                simp [FourCInput.getItem, hk, alGet_alSet_self]
          | error e =>
            rw [hi] at h
            rw [exceptBind_error] at h
            cases h
    · simp only [Bool.not_eq_true] at hleg
      simp only [hleg, Bool.false_eq_true, if_false] at h
      cases h

/-- Witness of the amended claim C1 at a concrete structured assignment. -/
theorem claim_C1_get_after_set_witness :
    demoDocTitle.getItem demoCatalog "TITLE" = .ok (coerce (.str "demo")) :=
  (claim_C1_get_after_set demoCatalog emptyFourCInput "TITLE" (.str "demo")
    demoDocTitle rfl).1 rfl

/-! ### Claim C5 counterexample, claims C6, C7, C8, C10 -/

/-- Claim C5 counterexample: split does not remove the requested names from
the source document itself. The source builds root_input as a deep copy of
the receiver and pops only from the copy, so the receiver state after a
successful split is the unchanged input document, which still contains the
requested name; only the returned remainder lost it. -/
theorem claim_C5_counterexample :
    demoDocTitle.split demoCatalog ["TITLE"] =
      .ok (emptyFourCInput, demoDocTitle) ∧
    demoDocTitle.containsDoc "TITLE" = true := ⟨rfl, rfl⟩

/-- Claim C6 counterexample: pop of a name outside the known-sections catalog
raises the unknown-section error although a default value was supplied,
instead of returning the default. -/
theorem claim_C6_counterexample :
    emptyFourCInput.pop demoCatalog "TITLEX" (some (.int 7)) =
      .error (.unknownSectionPopUnknown "TITLEX" "TITLE") := rfl

/-- Claim C6 (amended): for an unset name, pop returns the supplied default
only when the name is in the known-sections catalog; a known name without a
default raises through the not-set branch and a name outside the catalog
raises through the unknown-section branch even when a default is supplied,
so the two cases stay distinguished. -/
theorem claim_C6_pop_default (cat : SectionCatalog) (d : FourCInput)
    (n : String) (hunset : d.containsDoc n = false) :
    (cat.ALL_SECTIONS.contains n = true →
       ∀ v, d.pop cat n (some v) = .ok (v, d)) ∧
    (cat.ALL_SECTIONS.contains n = true →
       ∃ e, d.pop cat n none = .error e ∧
         ((∃ s, e = .unknownSectionPopNotSet n s) ∨ e = .indexError)) ∧
    (cat.ALL_SECTIONS.contains n = false →
       ∀ dflt, ∃ e, d.pop cat n dflt = .error e ∧
         ((∃ s, e = .unknownSectionPopUnknown n s) ∨ e = .indexError)) := by
  unfold FourCInput.containsDoc at hunset
  rw [Bool.or_eq_false_iff] at hunset
  have hs := alGet_eq_none_of_not_contains _ _ hunset.2
  have hl := alGet_eq_none_of_not_contains _ _ hunset.1
  refine ⟨?_, ?_, ?_⟩
  · intro hca v
    have hmem : n ∈ cat.ALL_SECTIONS := by simpa using hca
    simp [FourCInput.pop, hs, hl, hmem]
  · intro hca
    simp only [FourCInput.pop, hs, hl, hca, if_true]
    unfold suggestOr
    cases hm : getCloseMatches1 (toUpperStr n) d.get_section_names with
    | nil => exact ⟨.indexError, rfl, Or.inr rfl⟩
    | cons s rest => exact ⟨.unknownSectionPopNotSet n s, rfl, Or.inl ⟨s, rfl⟩⟩
  · intro hca dflt
    simp only [FourCInput.pop, hs, hl, hca, Bool.false_eq_true, if_false]
    unfold suggestOr
    cases hm : getCloseMatches1 (toUpperStr n) cat.ALL_SECTIONS with
    | nil => exact ⟨.indexError, rfl, Or.inr rfl⟩
    | cons s rest => exact ⟨.unknownSectionPopUnknown n s, rfl, Or.inl ⟨s, rfl⟩⟩

/-- Witness of the amended claim C6: a known but unset legacy name with a
default supplied returns exactly that default. -/
theorem claim_C6_pop_default_witness :
    emptyFourCInput.pop demoCatalog "PARTICLES" (some (.int 7)) =
      .ok (.int 7, emptyFourCInput) :=
  (claim_C6_pop_default demoCatalog emptyFourCInput "PARTICLES" rfl).1 rfl (.int 7)

/-- Claim C7 (code bug): setting a name outside both catalogs is meant to
raise UnknownSectionException carrying the closest catalog name, and does so
whenever some catalog name reaches the 0.3 cutoff; but the message builder
indexes the close-match list with [0], so when no catalog name reaches the
cutoff the IndexError of that index escapes instead of the intended
exception. The empty name has similarity 0 to every catalog name and
triggers the IndexError path. -/
theorem claim_C7_unknown_set_suggestion :
    emptyFourCInput.setItem demoCatalog "TITLEX" (.int 1) =
      .error (.unknownSectionSet "TITLEX" "TITLE") ∧
    getCloseMatches1 (toUpperStr "") demoCatalog.ALL_SECTIONS = [] ∧
    emptyFourCInput.setItem demoCatalog "" (.int 1) = .error .indexError :=
  ⟨rfl, rfl, rfl⟩

/-- Claim C8: setting a legacy-name section stores the eagerly interpreted
records for a sequence with no mapping entries (propagating an
interpretation failure as the raised error), stores the coerced value
unchanged for a sequence with a mapping entry or for a mapping, and raises a
TypeError for every other value type. -/
theorem claim_C8_legacy_set (cat : SectionCatalog) (d : FourCInput)
    (n : String) (hnk : is_section_known cat n = false)
    (hleg : cat.LEGACY_SECTIONS.contains n = true) :
    (∀ es, es.any Value.isDictV = false →
       d.setItem cat n (.list es) =
         (interpret_legacy_section cat n es).map
           (fun w => { d with legacySections := alSet d.legacySections n w })) ∧
    (∀ es, es.any Value.isDictV = true →
       d.setItem cat n (.list es) =
         .ok { d with legacySections := alSet d.legacySections n (.list es) }) ∧
    (∀ kvs, d.setItem cat n (.dict kvs) =
       .ok { d with legacySections := alSet d.legacySections n (.dict kvs) }) ∧
    (∀ b, d.setItem cat n (.bool b) = .error (.typeErrorLegacySet n)) ∧
    (∀ i, d.setItem cat n (.int i) = .error (.typeErrorLegacySet n)) ∧
    (∀ s, d.setItem cat n (.str s) = .error (.typeErrorLegacySet n)) ∧
    (d.setItem cat n .null = .error (.typeErrorLegacySet n)) := by
  have hlegmem : n ∈ cat.LEGACY_SECTIONS := by simpa using hleg
  refine ⟨?_, ?_, ?_, ?_, ?_, ?_, ?_⟩
  · intro es hany
    simp only [FourCInput.setItem, hnk, Bool.false_eq_true, if_false, hleg,
      if_true, coerce, hany, Bool.not_false]
    cases hi : interpret_legacy_section cat n es with
    | ok w => rw [exceptBind_ok]; rfl
    | error e => rw [exceptBind_error]; rfl
  · intro es hany
    simp [FourCInput.setItem, hnk, hlegmem, coerce, hany]
  · intro kvs
    simp [FourCInput.setItem, hnk, hlegmem, coerce]
  · intro b
    simp [FourCInput.setItem, hnk, hlegmem, coerce]
  · intro i
    simp [FourCInput.setItem, hnk, hlegmem, coerce]
  · intro s
    simp [FourCInput.setItem, hnk, hlegmem, coerce]
  · simp [FourCInput.setItem, hnk, hlegmem, coerce]

/-- Witness of claim C8 at the concrete legacy section: a mapping value is
stored unchanged. -/
theorem claim_C8_legacy_set_witness :
    emptyFourCInput.setItem demoCatalog "PARTICLES" (.dict [("x", .int 1)]) =
      .ok { emptyFourCInput with
            legacySections :=
              alSet emptyFourCInput.legacySections "PARTICLES"
                (.dict [("x", .int 1)]) } :=
  (claim_C8_legacy_set demoCatalog emptyFourCInput "PARTICLES" rfl rfl).2.2.1
    [("x", .int 1)]

/-- Claim C10: get of a structurally known name (catalog member or FUNCT
family) that is not in the structured partition raises the plain mapping
KeyError, and the fallthrough branch that builds the UnknownSectionException
with the section listing and the suggestion (or dies on the suggestion
index) is reached only for names that fail the known predicate. -/
theorem claim_C10_get_keyerror (cat : SectionCatalog) (d : FourCInput)
    (n : String) :
    (is_section_known cat n = true → alContains d.sections n = false →
       d.getItem cat n = .error (.keyError n)) ∧
    (∀ s l, d.getItem cat n = .error (.unknownSectionGet n s l) →
       is_section_known cat n = false) ∧
    (d.getItem cat n = .error .indexError → is_section_known cat n = false) := by
  refine ⟨?_, ?_, ?_⟩
  · intro hk hun
    have hs := alGet_eq_none_of_not_contains _ _ hun
    simp [FourCInput.getItem, hk, hs]
  · intro s l h
    by_cases hk : is_section_known cat n = true
    · exfalso
      simp only [FourCInput.getItem, hk, if_true] at h
      cases hg : alGet d.sections n with
      | some w => rw [hg] at h; cases h
      | none => rw [hg] at h; cases h
    · simpa using hk
  · intro h
    by_cases hk : is_section_known cat n = true
    · exfalso
      simp only [FourCInput.getItem, hk, if_true] at h
      cases hg : alGet d.sections n with
      | some w => rw [hg] at h; cases h
      | none => rw [hg] at h; cases h
    · simpa using hk

/-- Witness of claim C10: the known structured name of the demo catalog is
unset on a fresh document and get raises the plain KeyError there. -/
theorem claim_C10_get_keyerror_witness :
    emptyFourCInput.getItem demoCatalog "TITLE" = .error (.keyError "TITLE") :=
  (claim_C10_get_keyerror demoCatalog emptyFourCInput "TITLE").1 rfl rfl

/-! ### Contains algebra and stability of stored values -/

theorem alContains_cons (k : String) (w : Value) (l : List (String × Value))
    (m : String) : alContains ((k, w) :: l) m = ((k == m) || alContains l m) := by
  by_cases h : k = m
  · subst h; simp [alContains, alGet]
  · simp [alContains, alGet, h]

theorem alContains_alSet (l : List (String × Value)) (k : String) (v : Value)
    (m : String) :
    alContains (alSet l k v) m = (alContains l m || (k == m)) := by
  by_cases h : m = k
  · subst h
    simp [alContains_alSet_self]
  · rw [alContains_alSet_ne l k m v h]
    have : (k == m) = false := by
      simp [Ne.symm h]
    rw [this, Bool.or_false]

theorem alContains_alUnion (a b : List (String × Value)) (m : String) :
    alContains (alUnion a b) m = (alContains a m || alContains b m) := by
  induction b generalizing a with
  | nil => simp [alUnion, alContains, alGet]
  | cons hd tl ih =>
    obtain ⟨k, v⟩ := hd
    rw [show alUnion a ((k, v) :: tl) = alUnion (alSet a k v) tl from rfl]
    rw [ih, alContains_alSet, alContains_cons, Bool.or_assoc]

theorem mem_of_alGet (l : List (String × Value)) (k : String) (v : Value)
    (h : alGet l k = some v) : (k, v) ∈ l := by
  induction l with
  | nil => simp [alGet] at h
  | cons hd tl ih =>
    obtain ⟨k2, w⟩ := hd
    by_cases h2 : k2 = k
    · subst h2
      rw [show alGet ((k2, w) :: tl) k2 = some w from by simp [alGet]] at h
      injection h with h3
      subst h3
      exact List.mem_cons_self _ _
    · simp only [alGet, if_neg h2] at h
      exact List.mem_cons_of_mem _ (ih h)

theorem alContains_iff_mem_keys (l : List (String × Value)) (n : String) :
    alContains l n = true ↔ n ∈ l.map Prod.fst := by
  constructor
  · intro h
    obtain ⟨v, hv⟩ := exists_mem_of_alContains l n h
    exact List.mem_map.mpr ⟨(n, v), hv, rfl⟩
  · intro h
    induction l with
    | nil => simp at h
    | cons hd tl ih =>
      obtain ⟨k2, w⟩ := hd
      rw [List.map_cons, List.mem_cons] at h
      rw [alContains_cons]
      rcases h with h1 | h1
      · subst h1
        simp
      · rw [ih h1]
        simp

theorem mem_alUnion (a b : List (String × Value)) :
    ∀ kv ∈ alUnion a b, kv ∈ a ∨ kv ∈ b := by
  induction b generalizing a with
  | nil => intro kv hkv; exact Or.inl hkv
  | cons hd tl ih =>
    obtain ⟨k, v⟩ := hd
    intro kv hkv
    rw [show alUnion a ((k, v) :: tl) = alUnion (alSet a k v) tl from rfl] at hkv
    rcases ih (alSet a k v) kv hkv with h1 | h1
    · rcases mem_alSet a k v kv h1 with h2 | h2
      · exact Or.inr (h2 ▸ List.mem_cons_self _ _)
      · exact Or.inl h2
    · exact Or.inr (List.mem_cons_of_mem _ h1)

theorem mem_insertString (x s : String) (l : List String) :
    s ∈ insertString x l ↔ s = x ∨ s ∈ l := by
  induction l with
  | nil => simp [insertString]
  | cons hd tl ih =>
    by_cases h : x < hd
    · simp [insertString, h]
    · simp only [insertString, if_neg h, List.mem_cons, ih]
      tauto

theorem mem_sortStrings (s : String) (l : List String) :
    s ∈ sortStrings l ↔ s ∈ l := by
  induction l with
  | nil => simp [sortStrings]
  | cons hd tl ih =>
    simp only [sortStrings, mem_insertString, ih, List.mem_cons]

theorem mem_get_section_names (d : FourCInput) (n : String) :
    n ∈ d.get_section_names ↔ d.containsDoc n = true := by
  unfold FourCInput.get_section_names FourCInput.containsDoc
  rw [mem_sortStrings, List.mem_append]
  rw [Bool.or_eq_true]
  rw [alContains_iff_mem_keys, alContains_iff_mem_keys]

theorem mem_doubled_defined_sections (d e : FourCInput) (n : String) :
    n ∈ doubled_defined_sections d e ↔
      (d.containsDoc n = true ∧ e.containsDoc n = true) := by
  unfold doubled_defined_sections
  rw [List.mem_filter]
  rw [mem_get_section_names]
  constructor
  · rintro ⟨h1, h2⟩
    refine ⟨h1, ?_⟩
    rw [← mem_get_section_names]
    simpa using h2
  · rintro ⟨h1, h2⟩
    refine ⟨h1, ?_⟩
    rw [← mem_get_section_names] at h2
    simpa using h2

/-- Successful assignment updates exactly the assigned name in the
name set of the document. -/
theorem containsDoc_setItem_ok (cat : SectionCatalog) (d : FourCInput)
    (k : String) (v : Value) (d2 : FourCInput)
    (h : d.setItem cat k v = .ok d2) :
    ∀ m, d2.containsDoc m = (d.containsDoc m || (k == m)) := by
  intro m
  rcases setItem_ok_spec cat d k v d2 h with ⟨_, hs, hl⟩ | ⟨_, _, hs, w, hl⟩ <;>
    unfold FourCInput.containsDoc <;>
    rw [hs, hl, alContains_alSet] <;>
    cases hb1 : alContains d.legacySections m <;>
    cases hb2 : alContains d.sections m <;>
    cases hb3 : (k == m) <;> rfl

/-- Whether an Except value is a success. -/
def exceptIsOk {α : Type} : Except Err α → Bool
  | .ok _ => true
  | .error _ => false

/-- Whether one assignment of this name and value succeeds on a fresh
document; by the branch structure of setItem the outcome does not depend on
the receiving document. -/
def setOk (cat : SectionCatalog) (k : String) (v : Value) : Bool :=
  exceptIsOk (emptyFourCInput.setItem cat k v)

/-- Success of setItem depends only on the catalog, the name and the value,
never on the receiving document. -/
theorem setItem_isOk_indep (cat : SectionCatalog) (k : String) (v : Value)
    (d : FourCInput) :
    exceptIsOk (d.setItem cat k v) = setOk cat k v := by
  unfold setOk FourCInput.setItem
  by_cases hk : is_section_known cat k = true
  · simp [hk, exceptIsOk]
  · simp only [Bool.not_eq_true] at hk
    simp only [hk, Bool.false_eq_true, if_false]
    by_cases hleg : cat.LEGACY_SECTIONS.contains k = true
    · simp only [hleg, if_true]
      cases v with
      | null => rfl
      | bool b => rfl
      | int i => rfl
      | str s => rfl
      | dict kvs => rfl
      | list es =>
        simp only [coerce]
        by_cases hany : es.any Value.isDictV = true
        · simp [hany, exceptIsOk]
        · simp only [Bool.not_eq_true] at hany
          simp only [hany, Bool.not_false, if_true]
          cases hi : interpret_legacy_section cat k es with
          | ok w =>
            rw [exceptBind_ok, exceptBind_ok]
            rfl
          | error e => rw [exceptBind_error, exceptBind_error]
    · simp only [Bool.not_eq_true] at hleg
      have hnm : k ∉ cat.LEGACY_SECTIONS := by simpa using hleg
      simp [hnm]

theorem setItem_ok_of_setOk (cat : SectionCatalog) (k : String) (v : Value)
    (h : setOk cat k v = true) (d : FourCInput) :
    ∃ d2, d.setItem cat k v = .ok d2 := by
  have hiso := setItem_isOk_indep cat k v d
  rw [h] at hiso
  cases hr : d.setItem cat k v with
  | ok d2 => exact ⟨d2, rfl⟩
  | error e => rw [hr] at hiso; simp [exceptIsOk] at hiso

/-- An overwrite loop over entries that all assign successfully raises
nothing and adds exactly the keys of the entries to the name set. -/
theorem overwrite_all_setOk (cat : SectionCatalog) (l : List (String × Value)) :
    ∀ d : FourCInput, (∀ kv ∈ l, setOk cat kv.1 kv.2 = true) →
      ∃ d2, d.overwrite_sections cat l = (d2, none) ∧
        ∀ n, d2.containsDoc n =
          (d.containsDoc n || l.any (fun kv => kv.1 == n)) := by
  induction l with
  | nil =>
    intro d hall
    exact ⟨d, rfl, by simp [FourCInput.overwrite_sections]⟩
  | cons hd tl ih =>
    intro d hall
    obtain ⟨k, v⟩ := hd
    obtain ⟨d1, hset⟩ :=
      setItem_ok_of_setOk cat k v (hall (k, v) (List.mem_cons_self _ _)) d
    obtain ⟨d2, hrest, hcon⟩ :=
      ih d1 (fun kv hkv => hall kv (List.mem_cons_of_mem _ hkv))
    refine ⟨d2, ?_, ?_⟩
    · unfold FourCInput.overwrite_sections
      rw [hset]
      exact hrest
    · intro n
      rw [hcon n]
      rw [containsDoc_setItem_ok cat d k v d1 hset n]
      rw [Bool.or_assoc]
      rw [List.any_cons]

theorem alContains_eq_any (l : List (String × Value)) (n : String) :
    l.any (fun kv => kv.1 == n) = alContains l n := by
  induction l with
  | nil => rfl
  | cons hd tl ih =>
    obtain ⟨k, w⟩ := hd
    rw [List.any_cons, alContains_cons, ih]

theorem items_any_eq_containsDoc (d : FourCInput) (n : String) :
    d.items.any (fun kv => kv.1 == n) = d.containsDoc n := by
  unfold FourCInput.items FourCInput.sectionsUnion FourCInput.containsDoc
  rw [alContains_eq_any, alContains_alUnion, Bool.or_comm]

/-! ### Stability of stored values and document well-formedness -/

theorem alGet_some_of_contains (l : List (String × Value)) (k : String)
    (h : alContains l k = true) : ∃ v, alGet l k = some v := by
  unfold alContains at h
  cases hg : alGet l k with
  | none => rw [hg] at h; simp at h
  | some w => exact ⟨w, rfl⟩

/-- Whether one assignment of this name and value stores the value itself
unchanged: true for structurally known names (where the stored value is the
coerced value, which is the value), and for legacy names whose value is a
mapping, a sequence containing a mapping, or the empty sequence when its
interpretation returns the empty sequence again. Every value stored by a
successful assignment satisfies it for its name. -/
def stableVal (cat : SectionCatalog) (k : String) (v : Value) : Bool :=
  is_section_known cat k ||
  (cat.LEGACY_SECTIONS.contains k &&
    match v with
    | .dict _ => true
    | .list [] =>
      (match interpret_legacy_section cat k [] with
       | .ok (.list []) => true
       | _ => false)
    | .list (e0 :: es0) => (e0 :: es0).any Value.isDictV
    | _ => false)

theorem stableVal_of_known (cat : SectionCatalog) (k : String) (v : Value)
    (h : is_section_known cat k = true) : stableVal cat k v = true := by
  unfold stableVal
  rw [h, Bool.true_or]

/-- A stable value assigns successfully on any document and is stored
unchanged in the partition its name routes to. -/
theorem setItem_stableVal (cat : SectionCatalog) (k : String) (v : Value)
    (h : stableVal cat k v = true) (d : FourCInput) :
    ∃ d2, d.setItem cat k v = .ok d2 ∧
      ((is_section_known cat k = true ∧
          d2.sections = alSet d.sections k v ∧
          d2.legacySections = d.legacySections) ∨
       (is_section_known cat k = false ∧
          d2.sections = d.sections ∧
          d2.legacySections = alSet d.legacySections k v)) := by
  by_cases hk : is_section_known cat k = true
  · exact ⟨_, setItem_known cat d k v hk, Or.inl ⟨hk, rfl, rfl⟩⟩
  · simp only [Bool.not_eq_true] at hk
    unfold stableVal at h
    rw [hk, Bool.false_or, Bool.and_eq_true] at h
    obtain ⟨hleg, hshape⟩ := h
    cases v with
    | null => simp at hshape
    | bool b => simp at hshape
    | int i => simp at hshape
    | str s => simp at hshape
    | dict kvs =>
      refine ⟨{ d with legacySections := alSet d.legacySections k (.dict kvs) },
        ?_, Or.inr ⟨hk, rfl, rfl⟩⟩
      simp only [FourCInput.setItem, hk, Bool.false_eq_true, if_false, hleg,
        if_true, coerce]
    | list es =>
      cases es with
      | nil =>
        simp only at hshape
        cases hi : interpret_legacy_section cat k [] with
        | error e => rw [hi] at hshape; simp at hshape
        | ok w =>
          rw [hi] at hshape
          cases w with
          | list ws =>
            cases ws with
            | nil =>
              refine ⟨{ d with
                  legacySections := alSet d.legacySections k (.list []) },
                ?_, Or.inr ⟨hk, rfl, rfl⟩⟩
              simp only [FourCInput.setItem, hk, Bool.false_eq_true, if_false,
                hleg, if_true, coerce, List.any_nil, Bool.not_false, if_true]
              rw [hi, exceptBind_ok]
            | cons w0 ws0 => simp at hshape
          | null => simp at hshape
          | bool b => simp at hshape
          | int i => simp at hshape
          | str s => simp at hshape
          | dict kvs => simp at hshape
      | cons e0 es0 =>
        simp only at hshape
        refine ⟨{ d with
            legacySections := alSet d.legacySections k (.list (e0 :: es0)) },
          ?_, Or.inr ⟨hk, rfl, rfl⟩⟩
        simp only [FourCInput.setItem, hk, Bool.false_eq_true, if_false, hleg,
          if_true, coerce, hshape, Bool.not_true, Bool.false_eq_true, if_false]

theorem setOk_of_stableVal (cat : SectionCatalog) (k : String) (v : Value)
    (h : stableVal cat k v = true) : setOk cat k v = true := by
  obtain ⟨d2, hset, _⟩ := setItem_stableVal cat k v h emptyFourCInput
  unfold setOk
  rw [hset]
  rfl

/-- Structural well-formedness of a document: keys are routed according to
the known predicate and every legacy value is stable under reassignment of
its own name; documents reached by successful public operations satisfy it,
and it is decidable so that concrete instances can be checked by evaluation. -/
def DocWF (cat : SectionCatalog) (d : FourCInput) : Prop :=
  (∀ kv ∈ d.sections, is_section_known cat kv.1 = true) ∧
  (∀ kv ∈ d.legacySections, is_section_known cat kv.1 = false) ∧
  (∀ kv ∈ d.legacySections, stableVal cat kv.1 kv.2 = true)

instance (cat : SectionCatalog) (d : FourCInput) : Decidable (DocWF cat d) := by
  unfold DocWF
  infer_instance

theorem DocWF_empty (cat : SectionCatalog) : DocWF cat emptyFourCInput := by
  refine ⟨?_, ?_, ?_⟩ <;> simp [emptyFourCInput]

theorem DocWF_remove_sections (cat : SectionCatalog) (d : FourCInput)
    (n : String) (h : DocWF cat d) :
    DocWF cat { d with sections := alRemove d.sections n } :=
  ⟨fun kv hkv => h.1 kv (mem_alRemove _ _ kv hkv), h.2.1, h.2.2⟩

theorem DocWF_remove_legacy (cat : SectionCatalog) (d : FourCInput)
    (n : String) (h : DocWF cat d) :
    DocWF cat { d with legacySections := alRemove d.legacySections n } :=
  ⟨h.1, fun kv hkv => h.2.1 kv (mem_alRemove _ _ kv hkv),
    fun kv hkv => h.2.2 kv (mem_alRemove _ _ kv hkv)⟩

/-! ### Claim C3 -/

/-- Claim C3: the doubly defined section list is exactly the set of shared
names; combining two documents that share a section name raises the
naming-collision ValueError and leaves the receiver completely unchanged,
because the collision check precedes every assignment; combining two
documents with no shared name merges every section of the other document
into the receiver (each entry of the other document assigning successfully)
while keeping all receiver sections. -/
theorem claim_C3_combine_collision (cat : SectionCatalog) (d e : FourCInput) :
    (∀ n, n ∈ doubled_defined_sections d e ↔
       (d.containsDoc n = true ∧ e.containsDoc n = true)) ∧
    (doubled_defined_sections d e ≠ [] →
       d.combine_sections cat e =
         (d, some (.valueErrorCombine (doubled_defined_sections d e)))) ∧
    (doubled_defined_sections d e = [] →
       (∀ kv ∈ e.items, setOk cat kv.1 kv.2 = true) →
       ∃ d2, d.combine_sections cat e = (d2, none) ∧
         (∀ n, e.containsDoc n = true → d2.containsDoc n = true) ∧
         (∀ n, d.containsDoc n = true → d2.containsDoc n = true)) ∧
    (DocWF cat e → ∀ kv ∈ e.items, setOk cat kv.1 kv.2 = true) := by
  refine ⟨mem_doubled_defined_sections d e, ?_, ?_, ?_⟩
  · intro hne
    unfold FourCInput.combine_sections
    rw [if_pos hne]
  · intro hnil hall
    obtain ⟨d2, hov, hcon⟩ := overwrite_all_setOk cat e.items d hall
    refine ⟨d2, ?_, ?_, ?_⟩
    · unfold FourCInput.combine_sections
      rw [if_neg (fun hh => hh hnil)]
      exact hov
    · intro n hn
      rw [hcon n]
      rw [items_any_eq_containsDoc, hn]
      simp
    · intro n hn
      rw [hcon n, hn]
      simp
  · intro hwfe kv hkv
    have hkv2 : kv ∈ alUnion e.sections e.legacySections := hkv
    rcases mem_alUnion e.sections e.legacySections kv hkv2 with h1 | h1
    · exact setOk_of_stableVal cat kv.1 kv.2
        (stableVal_of_known cat kv.1 kv.2 (hwfe.1 kv h1))
    · exact setOk_of_stableVal cat kv.1 kv.2 (hwfe.2.2 kv h1)

/-- Witness of claim C3 at two concrete disjoint documents: the combination
succeeds and contains the sections of both. -/
theorem claim_C3_combine_collision_witness :
    ∃ d2, demoDocTitle.combine_sections demoCatalog demoDocParticles =
        (d2, none) ∧
      (∀ n, demoDocParticles.containsDoc n = true → d2.containsDoc n = true) ∧
      (∀ n, demoDocTitle.containsDoc n = true → d2.containsDoc n = true) :=
  (claim_C3_combine_collision demoCatalog demoDocTitle demoDocParticles).2.2.1
    rfl (by decide)

/-- Specification of the split loop: with pairwise distinct names all present
in the root document, every pop and every assignment succeeds, both results
stay well formed, the root loses exactly the requested names and the
extracted document gains exactly them. -/
theorem splitGo_spec (cat : SectionCatalog) (ns : List String) :
    ∀ root ext : FourCInput, ns.Nodup → DocWF cat root → DocWF cat ext →
      (∀ n ∈ ns, root.containsDoc n = true) →
      ∃ root2 ext2, splitGo cat root ext ns = .ok (root2, ext2) ∧
        DocWF cat root2 ∧ DocWF cat ext2 ∧
        (∀ n, root2.containsDoc n = (root.containsDoc n && !(ns.contains n))) ∧
        (∀ n, ext2.containsDoc n = (ext.containsDoc n || ns.contains n)) := by
  induction ns with
  | nil =>
    intro root ext _ hwr hwe _
    exact ⟨root, ext, rfl, hwr, hwe, by simp, by simp⟩
  | cons n rest ih =>
    intro root ext hnodup hwr hwe hpres
    obtain ⟨hnin, hnd⟩ := List.nodup_cons.mp hnodup
    have hcont : root.containsDoc n = true := hpres n (List.mem_cons_self _ _)
    have hstep : ∃ v root1,
        root.pop cat n none = .ok (v, root1) ∧ DocWF cat root1 ∧
        stableVal cat n v = true ∧
        root1.containsDoc n = false ∧
        (∀ m, m ≠ n → root1.containsDoc m = root.containsDoc m) := by
      cases hgs : alGet root.sections n with
      | some v =>
        have hmem := mem_of_alGet _ _ _ hgs
        have hkn : is_section_known cat n = true := hwr.1 (n, v) hmem
        have hlegf : alContains root.legacySections n = false := by
          cases hlf : alContains root.legacySections n
          · rfl
          · exfalso
            obtain ⟨w, hw⟩ := exists_mem_of_alContains _ n hlf
            have hc := hwr.2.1 (n, w) hw
            rw [hkn] at hc
            cases hc
        refine ⟨v, _, pop_sections_found cat root n none v hgs,
          DocWF_remove_sections cat root n hwr,
          stableVal_of_known cat n v hkn, ?_, ?_⟩
        · show (alContains root.legacySections n ||
            alContains (alRemove root.sections n) n) = false
          rw [alContains_alRemove_self, hlegf]
          rfl
        · intro m hm
          show (alContains root.legacySections m ||
            alContains (alRemove root.sections n) m) =
              root.containsDoc m
          rw [alContains_alRemove_ne _ _ _ hm]
          rfl
      | none =>
        have hsf : alContains root.sections n = false := by
          unfold alContains
          rw [hgs]
          rfl
        have hlc : alContains root.legacySections n = true := by
          unfold FourCInput.containsDoc at hcont
          rw [hsf, Bool.or_false] at hcont
          exact hcont
        obtain ⟨v, hgl⟩ := alGet_some_of_contains _ _ hlc
        have hmem := mem_of_alGet _ _ _ hgl
        refine ⟨v, _, pop_legacy_found cat root n none v hgs hgl,
          DocWF_remove_legacy cat root n hwr, hwr.2.2 (n, v) hmem, ?_, ?_⟩
        · show (alContains (alRemove root.legacySections n) n ||
            alContains root.sections n) = false
          rw [alContains_alRemove_self, hsf]
          rfl
        · intro m hm
          show (alContains (alRemove root.legacySections n) m ||
            alContains root.sections m) = root.containsDoc m
          rw [alContains_alRemove_ne _ _ _ hm]
          rfl
    obtain ⟨v, root1, hpop, hwr1, hstab, hr1n, hr1m⟩ := hstep
    obtain ⟨ext1, hset, hspec⟩ := setItem_stableVal cat n v hstab ext
    have hwe1 : DocWF cat ext1 := by
      rcases hspec with ⟨hkn, hs, hl⟩ | ⟨hkn, hs, hl⟩
      · refine ⟨?_, ?_, ?_⟩
        · intro kv hkv
          rw [hs] at hkv
          rcases mem_alSet _ _ _ kv hkv with h1 | h1
          · rw [h1]; exact hkn
          · exact hwe.1 kv h1
        · intro kv hkv; rw [hl] at hkv; exact hwe.2.1 kv hkv
        · intro kv hkv; rw [hl] at hkv; exact hwe.2.2 kv hkv
      · refine ⟨?_, ?_, ?_⟩
        · intro kv hkv; rw [hs] at hkv; exact hwe.1 kv hkv
        · intro kv hkv
          rw [hl] at hkv
          rcases mem_alSet _ _ _ kv hkv with h1 | h1
          · rw [h1]; exact hkn
          · exact hwe.2.1 kv h1
        · intro kv hkv
          rw [hl] at hkv
          rcases mem_alSet _ _ _ kv hkv with h1 | h1
          · rw [h1]; exact hstab
          · exact hwe.2.2 kv h1
    have hce1 : ∀ m, ext1.containsDoc m = (ext.containsDoc m || (n == m)) :=
      containsDoc_setItem_ok cat ext n v ext1 hset
    have hpres1 : ∀ m ∈ rest, root1.containsDoc m = true := by
      intro m hm
      have hmn : m ≠ n := fun he => hnin (he ▸ hm)
      rw [hr1m m hmn]
      exact hpres m (List.mem_cons_of_mem _ hm)
    obtain ⟨root2, ext2, hrun, hw2r, hw2e, hc2r, hc2e⟩ :=
      ih root1 ext1 hnd hwr1 hwe1 hpres1
    refine ⟨root2, ext2, ?_, hw2r, hw2e, ?_, ?_⟩
    · simp only [splitGo]
      rw [hpop]
      show (match FourCInput.setItem cat ext n v with
        | Except.error e => Except.error e
        | Except.ok ext2 => splitGo cat root1 ext2 rest) =
          Except.ok (root2, ext2)
      rw [hset]
      exact hrun
    · intro m
      rw [hc2r m]
      by_cases hm : m = n
      · subst hm
        rw [hr1n]
        have hc : (m :: rest).contains m = true := by simp
        rw [hc]
        simp
      · rw [hr1m m hm]
        have hc : (n :: rest).contains m = rest.contains m := by
          simp [List.contains_cons, hm]
        rw [hc]
    · intro m
      rw [hc2e m, hce1 m]
      by_cases hm : m = n
      · subst hm
        have hc : (m :: rest).contains m = true := by simp
        rw [hc]
        simp
      · have h1 : (n == m) = false := by simp [Ne.symm hm]
        have h2 : (n :: rest).contains m = rest.contains m := by
          simp [List.contains_cons, hm]
        rw [h1, h2]
        simp

/-! ### Claims C4 and C5 -/

/-- Claim C4: splitting a well-formed document by pairwise distinct names all
present in it and then combining the two resulting documents reproduces the
original section set: the split succeeds, the combination raises nothing,
and the combined document contains a name exactly when the original did. -/
theorem claim_C4_split_combine_round_trip (cat : SectionCatalog)
    (d : FourCInput) (ns : List String) (hnodup : ns.Nodup)
    (hpres : ∀ n ∈ ns, d.containsDoc n = true) (hwf : DocWF cat d) :
    ∃ root ext full, d.split cat ns = .ok (root, ext) ∧
      root.combine_sections cat ext = (full, none) ∧
      ∀ n, full.containsDoc n = d.containsDoc n := by
  obtain ⟨root, ext, hsp, hwfr, hwfe, hcr, hce⟩ :=
    splitGo_spec cat ns d emptyFourCInput hnodup hwf (DocWF_empty cat) hpres
  have hce2 : ∀ n, ext.containsDoc n = ns.contains n := by
    intro n
    rw [hce n]
    simp [emptyFourCInput, FourCInput.containsDoc, alContains, alGet]
  have hnil : doubled_defined_sections root ext = [] := by
    cases hl : doubled_defined_sections root ext with
    | nil => rfl
    | cons x xs =>
      exfalso
      have hx : x ∈ doubled_defined_sections root ext := by
        rw [hl]
        exact List.mem_cons_self _ _
      obtain ⟨h1, h2⟩ := (mem_doubled_defined_sections root ext x).mp hx
      rw [hcr x] at h1
      rw [hce2 x] at h2
      rw [h2] at h1
      simp at h1
  have hall : ∀ kv ∈ ext.items, setOk cat kv.1 kv.2 = true := by
    intro kv hkv
    have hkv2 : kv ∈ alUnion ext.sections ext.legacySections := hkv
    rcases mem_alUnion ext.sections ext.legacySections kv hkv2 with h1 | h1
    · exact setOk_of_stableVal cat kv.1 kv.2
        (stableVal_of_known cat kv.1 kv.2 (hwfe.1 kv h1))
    · exact setOk_of_stableVal cat kv.1 kv.2 (hwfe.2.2 kv h1)
  obtain ⟨full, hov, hcon⟩ := overwrite_all_setOk cat ext.items root hall
  refine ⟨root, ext, full, hsp, ?_, ?_⟩
  · unfold FourCInput.combine_sections
    rw [if_neg (fun hh => hh hnil)]
    exact hov
  · intro n
    rw [hcon n, items_any_eq_containsDoc, hce2 n, hcr n]
    cases hns : ns.contains n with
    | true =>
      have hmem : n ∈ ns := by simpa using hns
      rw [hpres n hmem]
      simp
    | false => simp

/-- Witness of claim C4 at a concrete document with one structured and one
legacy section, split by the legacy name. -/
theorem claim_C4_split_combine_round_trip_witness :
    ∃ root ext full,
      demoDocBoth.split demoCatalog ["PARTICLES"] = .ok (root, ext) ∧
      root.combine_sections demoCatalog ext = (full, none) ∧
      ∀ n, full.containsDoc n = demoDocBoth.containsDoc n :=
  claim_C4_split_combine_round_trip demoCatalog demoDocBoth ["PARTICLES"]
    (by decide) (by decide) (by decide)

/-- Claim C5 (amended): split pops the requested names from a deep copy of
the receiver, so the receiver itself keeps all its sections while the
returned remainder no longer contains any requested name and the extracted
document contains exactly the requested names. -/
theorem claim_C5_remainder_loses_names (cat : SectionCatalog) (d : FourCInput)
    (ns : List String) (hnodup : ns.Nodup)
    (hpres : ∀ n ∈ ns, d.containsDoc n = true) (hwf : DocWF cat d) :
    ∃ root ext, d.split cat ns = .ok (root, ext) ∧
      (∀ n ∈ ns, root.containsDoc n = false) ∧
      (∀ n, ext.containsDoc n = ns.contains n) := by
  obtain ⟨root, ext, hsp, _, _, hcr, hce⟩ :=
    splitGo_spec cat ns d emptyFourCInput hnodup hwf (DocWF_empty cat) hpres
  refine ⟨root, ext, hsp, ?_, ?_⟩
  · intro n hn
    rw [hcr n]
    have hns : ns.contains n = true := by simpa using hn
    rw [hns]
    simp
  · intro n
    rw [hce n]
    simp [emptyFourCInput, FourCInput.containsDoc, alContains, alGet]

/-- Witness of the amended claim C5 at a concrete document. -/
theorem claim_C5_remainder_loses_names_witness :
    ∃ root ext, demoDocTitle.split demoCatalog ["TITLE"] = .ok (root, ext) ∧
      (∀ n ∈ ["TITLE"], root.containsDoc n = false) ∧
      (∀ n, ext.containsDoc n = (["TITLE"] : List String).contains n) :=
  claim_C5_remainder_loses_names demoCatalog demoDocTitle ["TITLE"]
    (by decide) (by decide) (by decide)

/-! ### Claim C9 -/

theorem convert_to_native_types_id (d : FourCInput) :
    d.convert_to_native_types = d := by
  cases d
  simp [FourCInput.convert_to_native_types, coerceDict_id]

theorem inline_legacy_sections_keys (l il : List (String × Value))
    (h : inline_legacy_sections l = .ok il) :
    il.map Prod.fst = l.map Prod.fst := by
  induction l generalizing il with
  | nil =>
    cases h
    rfl
  | cons hd tl ih =>
    obtain ⟨k, v⟩ := hd
    unfold inline_legacy_sections at h
    cases hw : inline_legacy_section k v with
    | error e =>
      rw [hw] at h
      rw [exceptBind_error] at h
      cases h
    | ok w =>
      rw [hw] at h
      rw [exceptBind_ok] at h
      cases ht : inline_legacy_sections tl with
      | error e =>
        rw [ht] at h
        rw [exceptBind_error] at h
        cases h
      | ok ilt =>
        rw [ht] at h
        rw [exceptBind_ok] at h
        cases h
        rw [List.map_cons, List.map_cons, ih ilt ht]

theorem alContains_append (a b : List (String × Value)) (m : String) :
    alContains (a ++ b) m = (alContains a m || alContains b m) := by
  induction a with
  | nil => simp [alContains, alGet]
  | cons hd tl ih =>
    obtain ⟨k, w⟩ := hd
    rw [List.cons_append, alContains_cons, alContains_cons, ih, Bool.or_assoc]

theorem alUnion_eq_append (b : List (String × Value)) :
    ∀ a, (∀ kv ∈ b, alContains a kv.1 = false) → (b.map Prod.fst).Nodup →
      alUnion a b = a ++ b := by
  induction b with
  | nil =>
    intro a _ _
    simp [alUnion]
  | cons hd tl ih =>
    intro a hdisj hnodup
    obtain ⟨k, v⟩ := hd
    rw [show alUnion a ((k, v) :: tl) = alUnion (alSet a k v) tl from rfl]
    have hcf : alContains a k = false := hdisj (k, v) (List.mem_cons_self _ _)
    rw [alSet_of_not_contains a k v hcf]
    rw [List.map_cons] at hnodup
    obtain ⟨hkn, hnd⟩ := List.nodup_cons.mp hnodup
    have hdisj2 : ∀ kv ∈ tl, alContains (a ++ [(k, v)]) kv.1 = false := by
      intro kv hkv
      rw [alContains_append]
      rw [hdisj kv (List.mem_cons_of_mem _ hkv)]
      have hne : kv.1 ≠ k := by
        intro he
        exact hkn (he ▸ List.mem_map.mpr ⟨kv, hkv, rfl⟩)
      have : alContains [(k, v)] kv.1 = false := by
        simp [alContains, alGet, Ne.symm hne]
      rw [this]
      rfl
    rw [ih (a ++ [(k, v)]) hdisj2 hnd]
    simp

/-- Claim C9 counterexample: with the legacy section assigned first
(PARTICLES) and the structured section second (TITLE), the exported mapping
lists TITLE before PARTICLES, because the export is the structured partition
followed by the inlined legacy partition rather than the global insertion
order of the document. -/
theorem claim_C9_counterexample :
    emptyFourCInput.setItem demoCatalog "PARTICLES" (.list [.str "1 TYPE A"]) =
      .ok demoDocParticles ∧
    demoDocParticles.setItem demoCatalog "TITLE" (.str "t") =
      .ok demoDocBoth ∧
    Except.map (fun m => m.map Prod.fst) (demoDocBoth.dumpExported false) =
      .ok ["TITLE", "PARTICLES"] ∧
    (["TITLE", "PARTICLES"] : List String) ≠ ["PARTICLES", "TITLE"] :=
  ⟨rfl, rfl, rfl, by decide⟩

/-- Claim C9 (amended): the mapping exported by dump is the structured
partition followed by the inlined text-line form of the legacy partition, so
the section order is structured-partition insertion order followed by
legacy-partition insertion order unless lexicographic sorting is requested,
in which case the export is the same mapping sorted by section name. -/
theorem claim_C9_dump_union_order (d : FourCInput)
    (m : List (String × Value))
    (hnodup : (d.legacySections.map Prod.fst).Nodup)
    (hdisj : ∀ kv ∈ d.legacySections, alContains d.sections kv.1 = false)
    (h : d.dumpExported false = .ok m) :
    (∃ il, inline_legacy_sections d.legacySections = .ok il ∧
       m = d.sections ++ il ∧
       il.map Prod.fst = d.legacySections.map Prod.fst) ∧
    m.map Prod.fst = d.sections.map Prod.fst ++ d.legacySections.map Prod.fst ∧
    d.dumpExported true = .ok (sortByKey m) := by
  have hconv := convert_to_native_types_id d
  cases hi : inline_legacy_sections d.legacySections with
  | error e =>
    exfalso
    unfold FourCInput.dumpExported FourCInput.inlined at h
    rw [hconv, hi] at h
    rw [exceptBind_error, exceptBind_error] at h
    cases h
  | ok il =>
    unfold FourCInput.dumpExported FourCInput.inlined at h
    rw [hconv, hi] at h
    rw [exceptBind_ok, exceptBind_ok] at h
    simp only [Bool.false_eq_true, if_false] at h
    cases h
    have hkeys := inline_legacy_sections_keys d.legacySections il hi
    have happ : alUnion d.sections il = d.sections ++ il := by
      refine alUnion_eq_append il d.sections ?_ (hkeys ▸ hnodup)
      intro kv hkv
      have hmem : kv.1 ∈ d.legacySections.map Prod.fst := by
        rw [← hkeys]
        exact List.mem_map.mpr ⟨kv, hkv, rfl⟩
      have hlc : alContains d.legacySections kv.1 = true :=
        (alContains_iff_mem_keys _ _).mpr hmem
      obtain ⟨w, hw⟩ := exists_mem_of_alContains _ _ hlc
      exact hdisj (kv.1, w) hw
    refine ⟨⟨il, rfl, happ, hkeys⟩, ?_, ?_⟩
    · rw [happ, List.map_append, hkeys]
    · unfold FourCInput.dumpExported FourCInput.inlined
      rw [hconv, hi]
      rw [exceptBind_ok, exceptBind_ok]
      simp

/-- Witness of the amended claim C9 at the concrete two-section document. -/
theorem claim_C9_dump_union_order_witness :
    ∃ il, inline_legacy_sections demoDocBoth.legacySections = .ok il ∧
      il.map Prod.fst = demoDocBoth.legacySections.map Prod.fst := by
  obtain ⟨⟨il, hil, _, hkeys⟩, _, _⟩ :=
    claim_C9_dump_union_order demoDocBoth
      (demoDocBoth.sections ++
        [("PARTICLES", Value.list [.str "1 TYPE A"])])
      (by decide) (by decide) rfl
  exact ⟨il, hil, hkeys⟩
